import Mathlib

/-!
Verification of the editing core of the breeze editor (libbrz).

The development shallowly embeds the data model and operations of
`src/libbrz/src/{selection.rs, idx.rs, buffer.rs, state.rs}`:

* the rope text is a `List Char` (character-indexed, like `ropey::Rope`);
* `Idx` is a plain `Nat` (the `Idx(pub usize)` newtype), with all the
  saturating arithmetic of `idx.rs` spelled out;
* `Selection`, `SelectionSet`, `Buffer`, `BufferState` mirror the Rust
  structs field by field (the render-only `view_line_offset` cell is the
  one field left out, as spec section 9 assigns it to the presentation
  layer);
* Rust code paths that panic (usize underflow, out-of-bounds `Vec`
  indexing) are embedded as `Option`-returning functions where a claim
  depends on them, `none` marking the panic.

Character classification (`is_alphanumeric`, `is_whitespace`) is modelled
with the corresponding Lean `Char` predicates, which agree with the Rust
ones on the ASCII texts the claims exercise.
-/

/-- The text of a buffer: a sequence of Unicode scalar values, indexed by
character position exactly like `ropey::Rope`. -/
abbrev Text := List Char

/-! ### util/char.rs -/

/-- `util::char::is_word_forming`: alphanumeric or underscore. -/
def isWordForming (ch : Char) : Bool :=
  ch.isAlphanum || ch = '_'

/-- `util::char::is_newline`. -/
def isNewline (ch : Char) : Bool := ch = '\n'

/-- `util::char::is_not_newline`. -/
def isNotNewline (ch : Char) : Bool := ch ≠ '\n'

/-- `util::char::is_non_newline_whitespace`. -/
def isNonNewlineWhitespace (ch : Char) : Bool :=
  ch.isWhitespace && ch ≠ '\n'

/-! ### idx.rs: character categories -/

/-- `idx.rs` `CharCategory`. -/
inductive CharCategory where
  | Alphanumeric
  | Whitespace
  | Punctuation
deriving DecidableEq, Repr

/-- `idx.rs` `char_category`. -/
def charCategory (ch : Char) : CharCategory :=
  if isWordForming ch then .Alphanumeric
  else if ch.isWhitespace then .Whitespace
  else .Punctuation

/-! ### idx.rs: the `Idx` operations (an `Idx` is a `Nat` here) -/

namespace Idx

/-- `Idx::begining`. -/
def begining (_text : Text) : Nat := 0

/-- `Idx::end` (named `endIdx` since `end` is a keyword). -/
def endIdx (text : Text) : Nat := text.length

/-- `Idx::backward_n`: saturating subtraction, the text is unused. -/
def backwardN (i n : Nat) (_text : Text) : Nat := i - n

/-- `Idx::forward_n`: saturating add clamped to the text length. -/
def forwardN (i n : Nat) (text : Text) : Nat := min (i + n) text.length

/-- `Idx::backward`. -/
def backward (i : Nat) (text : Text) : Nat := backwardN i 1 text

/-- `Idx::forward`. -/
def forward (i : Nat) (text : Text) : Nat := forwardN i 1 text

/-- `Idx::prev_char`. -/
def prevChar (i : Nat) (text : Text) : Option Char :=
  if i = 0 then none else text.get? (i - 1)

/-- `Idx::next_char`. -/
def nextChar (i : Nat) (text : Text) : Option Char :=
  if i ≥ text.length then none else text.get? i

/-- `Idx::trim_to_text`. -/
def trimToText (i : Nat) (text : Text) : Nat :=
  if i > text.length then text.length else i

end Idx

/-- Loop body of `Idx::forward_while`, with explicit fuel.  The Rust loop
advances one character at a time while the next character satisfies `f`;
`text.length` steps of fuel always suffice because the position grows on
every step and the loop stops at the end of the text. -/
def forwardWhileAux (f : Char → Bool) (text : Text) : Nat → Nat → Nat
  | 0, cur => cur
  | fuel + 1, cur =>
    match Idx.nextChar cur text with
    | some c => if f c then forwardWhileAux f text fuel (cur + 1) else cur
    | none => cur

/-- `Idx::forward_while`. -/
def Idx.forwardWhile (f : Char → Bool) (cur : Nat) (text : Text) : Nat :=
  forwardWhileAux f text text.length cur

/-- Loop body of `Idx::backward_while`, stepping back while the previous
character satisfies `f`; structural recursion on the position itself. -/
def backwardWhileAux (f : Char → Bool) (text : Text) : Nat → Nat
  | 0 => 0
  | cur + 1 =>
    match Idx.prevChar (cur + 1) text with
    | some c => if f c then backwardWhileAux f text cur else cur + 1
    | none => cur + 1

/-- `Idx::backward_while`. -/
def Idx.backwardWhile (f : Char → Bool) (cur : Nat) (text : Text) : Nat :=
  backwardWhileAux f text cur

/-- `Idx::forward_word`: skip newlines, cross one maximal same-category
run, then consume trailing non-newline whitespace; returns the pair
`(start, final)` exactly as the source does. -/
def Idx.forwardWord (i : Nat) (text : Text) : Nat × Nat :=
  let cur := Idx.forwardWhile isNewline i text
  let start := cur
  let cur :=
    match (Idx.nextChar start text).map charCategory with
    | some startChCategory =>
      Idx.forwardWhile (fun ch => charCategory ch = startChCategory) cur text
    | none => cur
  let cur := Idx.forwardWhile isNonNewlineWhitespace cur text
  (start, cur)

/-- `Idx::backward_to_line_start`. -/
def Idx.backwardToLineStart (i : Nat) (text : Text) : Nat :=
  Idx.backwardWhile (fun ch => ch ≠ '\n') i text

/-- `Idx::before_first_non_whitespace`. -/
def Idx.beforeFirstNonWhitespace (i : Nat) (text : Text) : Nat :=
  Idx.forwardWhile isNonNewlineWhitespace (Idx.backwardToLineStart i text) text

/-! ### position.rs -/

/-- `Position { line, column }`. -/
structure Position where
  line : Nat
  column : Nat
deriving DecidableEq, Repr

/-- `ropey` `char_to_line`: the line holding character `i` is the number
of newline characters strictly before it. -/
def charToLine (text : Text) (i : Nat) : Nat :=
  (text.take i).count '\n'

/-- `ropey` `line_to_char`: index of the first character of line `l`
(the position just after the l-th newline; clamped to the text length
for a line index past the end, where ropey would panic). -/
def lineToChar (text : Text) (l : Nat) : Nat :=
  match text, l with
  | _, 0 => 0
  | [], _ + 1 => 0
  | c :: rest, l + 1 =>
    if c = '\n' then 1 + lineToChar rest l else 1 + lineToChar rest (l + 1)

/-- `Position::from_idx`. -/
def Position.fromIdx (i : Nat) (text : Text) : Position :=
  let line := charToLine text i
  { line := line, column := i - lineToChar text line }

/-- `Idx::to_position`. -/
def Idx.toPosition (i : Nat) (text : Text) : Position :=
  Position.fromIdx i text

/-! ### selection.rs -/

/-- `Selection`: an aligned anchor/cursor pair of character indices plus
the remembered direction flag. -/
structure Selection where
  anchor : Nat
  cursor : Nat
  wasForward : Bool
deriving DecidableEq, Repr

namespace Selection

/-- `Selection::default()`: both endpoints 0, `was_forward` false. -/
def default : Selection := { anchor := 0, cursor := 0, wasForward := false }

/-- `Selection::is_forward`. -/
def isForward (sel : Selection) : Bool :=
  if sel.anchor < sel.cursor then true
  else if sel.cursor < sel.anchor then false
  else sel.wasForward

/-- `Selection::collapsed`: anchor moves onto the cursor. -/
def collapsed (sel : Selection) : Selection :=
  { cursor := sel.cursor, anchor := sel.cursor, wasForward := sel.wasForward }

/-- `Selection::reversed`. -/
def reversed (sel : Selection) : Selection :=
  { anchor := sel.cursor, cursor := sel.anchor, wasForward := !sel.wasForward }

/-- `Selection::sorted`. -/
def sorted (sel : Selection) : Selection :=
  if sel.isForward then sel else sel.reversed

/-- `Selection::sorted_pair`. -/
def sortedPair (sel : Selection) : Nat × Nat :=
  if sel.isForward then (sel.anchor, sel.cursor) else (sel.cursor, sel.anchor)

/-- Modelled from the spec: `Selection::normalized` is called by
`buffer.rs` but its definition is absent from the snapshot of
`selection.rs` (which has the equivalent older `aligned`); spec section
4.2 says it clamps both endpoints into the buffer range, which is exactly
what `aligned` does via `Idx::trim_to_text`. -/
def normalized (sel : Selection) (text : Text) : Selection :=
  { sel with
    anchor := Idx.trimToText sel.anchor text
    cursor := Idx.trimToText sel.cursor text }

end Selection

/-! ### buffer.rs: SelectionSet -/

/-- `SelectionSet`. -/
structure SelectionSet where
  primary : Nat
  selections : List Selection
  cursorColumn : List Nat
deriving DecidableEq, Repr

namespace SelectionSet

/-- `SelectionSet::default()`. -/
def default : SelectionSet :=
  { selections := [Selection.default], primary := 0, cursorColumn := [] }

/-- `SelectionSet::clear_cursor_column`. -/
def clearCursorColumn (ss : SelectionSet) : SelectionSet :=
  { ss with cursorColumn := [] }

/-- `SelectionSet::collapse`. -/
def collapse (ss : SelectionSet) : SelectionSet :=
  { ss with selections := ss.selections.map Selection.collapsed }

/-- `SelectionSet::sort`. -/
def sort (ss : SelectionSet) : SelectionSet :=
  { ss with selections := ss.selections.map Selection.sorted }

end SelectionSet

/-- Per-selection body of `SelectionSet::fix_on_insert` (buffer.rs lines
75 to 96): the loop mutates each selection independently with this rule. -/
def Selection.fixOnInsert (idx len : Nat) (sel : Selection) : Selection :=
  let cursorIdx := sel.cursor
  let anchorIdx := sel.anchor
  if sel.isForward then
    { sel with
      cursor := if idx ≤ cursorIdx then cursorIdx + len else cursorIdx
      anchor := if idx < anchorIdx then anchorIdx + len else anchorIdx }
  else
    { sel with
      cursor := if idx < cursorIdx then cursorIdx + len else cursorIdx
      anchor := if idx ≤ anchorIdx then anchorIdx + len else anchorIdx }

/-- `SelectionSet::fix_on_insert`. -/
def SelectionSet.fixOnInsert (idx len : Nat) (ss : SelectionSet) : SelectionSet :=
  { ss with selections := ss.selections.map (Selection.fixOnInsert idx len) }

/-- Per-selection body of `SelectionSet::fix_on_delete` (buffer.rs lines
98 to 114).  `backward_n` ignores the text, so the rule is pure index
arithmetic with saturating subtraction. -/
def Selection.fixOnDelete (idx len : Nat) (text : Text) (sel : Selection) : Selection :=
  let cursorIdx := sel.cursor
  let anchorIdx := sel.anchor
  { sel with
    cursor :=
      if idx < Idx.backwardN cursorIdx len text then cursorIdx - len
      else if idx < cursorIdx then cursorIdx - (cursorIdx - idx)
      else cursorIdx
    anchor :=
      if idx < Idx.backwardN anchorIdx len text then anchorIdx - len
      else if idx < anchorIdx then anchorIdx - (anchorIdx - idx)
      else anchorIdx }

/-- `SelectionSet::fix_on_delete`. -/
def SelectionSet.fixOnDelete (idx len : Nat) (text : Text) (ss : SelectionSet) : SelectionSet :=
  { ss with selections := ss.selections.map (Selection.fixOnDelete idx len text) }


/-! ### buffer.rs: the Buffer and its text-editing helpers -/

/-- `Rope::insert(idx, s)`: splice `s` in at character index `idx`
(total here; ropey panics for `idx` past the end, which the theorems
below exclude by hypothesis). -/
def insertText (idx : Nat) (s : Text) (text : Text) : Text :=
  text.take idx ++ s ++ text.drop idx

/-- `Rope::remove(start..stop)`: drop the characters of `[start, stop)`. -/
def removeText (start stop : Nat) (text : Text) : Text :=
  text.take start ++ text.drop stop

/-- Stable insertion used by `sortByKey` below. -/
def insertByKey (key : α → Nat) (x : α) : List α → List α
  | [] => [x]
  | y :: ys => if key y ≤ key x then y :: insertByKey key x ys else x :: y :: ys

/-- A stable sort by a `Nat` key, standing in for the stable
`slice::sort_by_key` the source uses on insertion/removal points. -/
def sortByKey (key : α → Nat) : List α → List α
  | [] => []
  | x :: xs => insertByKey key x (sortByKey key xs)

/-- `distance_to_next_tabstop` (buffer.rs lines 16 to 19). -/
def distanceToNextTabstop (visualColumn tabstop : Nat) : Nat :=
  (visualColumn + tabstop) / tabstop * tabstop - visualColumn

/-- `distance_to_prev_tabstop` (buffer.rs lines 21 to 24). -/
def distanceToPrevTabstop (visualColumn tabstop : Nat) : Nat :=
  visualColumn - (visualColumn - 1) / tabstop * tabstop

/-- `Buffer`: text, selection set and the formatting options.  The
render-only `view_line_offset` cell is omitted (presentation state),
as is the unused-by-these-operations `path` default handling beyond the
field itself. -/
structure Buffer where
  text : Text
  selection : SelectionSet
  path : Option String
  tabstop : Nat
  expandTabs : Bool
deriving DecidableEq, Repr

namespace Buffer

/-- `Buffer::default()`: empty rope, default selection set, tabstop 4,
expand-tabs on. -/
def default : Buffer :=
  { text := [], selection := SelectionSet.default, path := none,
    tabstop := 4, expandTabs := true }

/-- `Buffer::to_visual` (buffer.rs lines 774 to 788): fold over the
characters of the line before `coord.column`, a tab advancing to the
next tab stop and anything else advancing by one.  The slice of the
line before the column is `take coord.column` of the suffix starting at
the first character of the line (identical to the ropey slice whenever
the column does not exceed the line length, which holds for every
position produced by `Position::from_idx`). -/
def toVisual (b : Buffer) (coord : Position) : Position :=
  let lineSlice := (b.text.drop (lineToChar b.text coord.line)).take coord.column
  let vCol := lineSlice.foldl
    (fun vCol ch =>
      if ch = '\t' then vCol + distanceToNextTabstop vCol b.tabstop else vCol + 1)
    0
  { line := coord.line, column := vCol }

/-- `Buffer::insert` (buffer.rs lines 327 to 345): collect the cursors,
sort descending, optionally collapse and sort the selections, then for
each insertion point run the fixup and splice the text in. -/
def insert (s : Text) (extend : Bool) (b : Buffer) : Buffer :=
  let b := { b with selection := b.selection.clearCursorColumn }
  let insertionPoints := (sortByKey id (b.selection.selections.map Selection.cursor)).reverse
  let b :=
    if !extend then
      { b with selection := (b.selection.collapse).sort }
    else b
  insertionPoints.foldl
    (fun b idx =>
      if s ≠ [] then
        { b with
          selection := b.selection.fixOnInsert idx s.length
          text := insertText idx s b.text }
      else b)
    b

/-- `Buffer::insert_char`. -/
def insertChar (ch : Char) (extend : Bool) (b : Buffer) : Buffer :=
  b.insert [ch] extend

/-- `Buffer::insert_tab` (buffer.rs lines 301 to 325).  With expand-tabs
on, each cursor gets `distance_to_next_tabstop` spaces, the distance
measured at the visual column of that cursor in the pre-edit text; with
expand-tabs off a literal tab character is inserted. -/
def insertTab (extend : Bool) (b : Buffer) : Buffer :=
  let b0 := { b with selection := b.selection.clearCursorColumn }
  if b0.expandTabs then
    let insertions := b0.selection.selections.map fun sel =>
      let vCol := (b0.toVisual (Idx.toPosition sel.cursor b0.text)).column
      (sel.cursor, distanceToNextTabstop vCol b0.tabstop)
    let insertions := (sortByKey (fun p => p.1) insertions).reverse
    insertions.foldl
      (fun b p =>
        let b := if !extend then { b with selection := b.selection.collapse } else b
        let b := { b with selection := b.selection.sort }
        let b := { b with selection := b.selection.fixOnInsert p.1 p.2 }
        { b with text := insertText p.1 (List.replicate p.2 ' ') b.text })
      b0
  else
    b0.insertChar '\t' extend

/-- `Buffer::remove_ranges` (buffer.rs lines 457 to 466): sort the
ranges by start descending and, for each, fix the selections up and
remove the span from the text. -/
def removeRanges (b : Buffer) (removalPoints : List (Nat × Nat)) : Buffer :=
  let sorted := (sortByKey (fun r => r.1) removalPoints).reverse
  sorted.foldl
    (fun b r =>
      { b with
        selection := b.selection.fixOnDelete r.1 (r.2 - r.1) b.text
        text := removeText r.1 r.2 b.text })
    b

/-- `Buffer::backspace_one` (buffer.rs lines 468 to 479).  The source
builds the range `(sel_aligned.cursor.0 - 1)..sel_aligned.cursor.0` with
unchecked usize subtraction: when a normalized cursor sits at index 0
this underflows, which is a panic (directly in a debug build; in a
release build the wrapped range makes the rope remove call panic).  The
panic is `none` here. -/
def backspaceOne (b : Buffer) : Option Buffer :=
  let b := { b with selection := b.selection.clearCursorColumn }
  if b.selection.selections.any (fun sel => (sel.normalized b.text).cursor = 0) then
    none
  else
    let removalPoints := b.selection.selections.map fun sel =>
      let c := (sel.normalized b.text).cursor
      (c - 1, c)
    let b := { b with selection := b.selection.collapse }
    some (b.removeRanges removalPoints)

/-- `Buffer::backspace` (buffer.rs lines 481 to 515): with expand-tabs
on, remove back to the previous tab stop when the cursor sits in the
leading whitespace of its line (and not at visual column 0), otherwise
one character, everything through saturating arithmetic; with
expand-tabs off, defer to `backspace_one`. -/
def backspace (extend : Bool) (b : Buffer) : Option Buffer :=
  let b0 := { b with selection := b.selection.clearCursorColumn }
  if b0.expandTabs then
    let removal := b0.selection.selections.map fun sel =>
      let vCol := (b0.toVisual (Idx.toPosition sel.cursor b0.text)).column
      (sel.cursor,
        if vCol = 0 then 1
        else if sel.cursor = Idx.beforeFirstNonWhitespace sel.cursor b0.text then
          distanceToPrevTabstop vCol b0.tabstop
        else 1)
    let removal := (sortByKey (fun r => r.1) removal).reverse
    let b1 :=
      if !extend then
        { b0 with selection := (b0.selection.collapse).sort }
      else b0
    some (removal.foldl
      (fun b r =>
        let start := Idx.backwardN r.1 r.2 b.text
        { b with
          selection := b.selection.fixOnDelete start (r.1 - start) b.text
          text := removeText start r.1 b.text })
      b1)
  else
    b0.backspaceOne

/-- `Buffer::select_all` (buffer.rs lines 758 to 763): the selection
list is replaced by the single pair anchor 0, cursor at the total
character length.  The struct literal in the source gives no
`was_forward` value (the snapshot of `selection.rs` carries that third
field), so the flag is taken as a parameter `w` here; no claim below
depends on its value. -/
def selectAll (w : Bool) (b : Buffer) : Buffer :=
  { b with
    selection :=
      { b.selection with
        selections := [{ anchor := 0, cursor := b.text.length, wasForward := w }] } }

/-- `Buffer::move_cursor_2`: anchor and cursor both re-set from the
pair-valued movement function applied at the cursor. -/
def moveCursor2 (f : Nat → Text → Nat × Nat) (b : Buffer) : Buffer :=
  { b with
    selection :=
      { b.selection with
        selections := b.selection.selections.map fun sel =>
          let p := f sel.cursor b.text
          { sel with anchor := p.1, cursor := p.2 } } }

/-- `Buffer::move_cursor_forward_word`. -/
def moveCursorForwardWord (b : Buffer) : Buffer :=
  let b := { b with selection := b.selection.clearCursorColumn }
  b.moveCursor2 Idx.forwardWord

end Buffer

/-- The buffer of the word-motion example of the spec: text
`foo  bar.baz`, default single caret at offset 0. -/
def exampleWordBuffer : Buffer :=
  { text := ['f','o','o',' ',' ','b','a','r','.','b','a','z'],
    selection := SelectionSet.default, path := none, tabstop := 4, expandTabs := true }



/-- A two-character buffer whose single (primary) selection is backward:
anchor 2, cursor 0. -/
def exampleBackwardBuffer : Buffer :=
  { text := ['a','b'],
    selection := { primary := 0, selections := [⟨2, 0, false⟩], cursorColumn := [] },
    path := none, tabstop := 4, expandTabs := true }

/-! ### state.rs: BufferState and the undo/redo state machine -/

/-- `BufferState` (state.rs lines 19 to 26): the live buffer, the list
of committed snapshots, and the optional mid-history undo cursor
(`buffer_history_undo_i`).  The `path` field of the state is not part
of any claim and is left out. -/
structure BufferState where
  buffer : Buffer
  bufferHistory : List Buffer
  bufferHistoryUndoI : Option Nat
deriving Repr

namespace BufferState

/-- The live-mode body of `maybe_commit_undo_point` (state.rs lines 44
to 56): with no undo cursor, push a snapshot when the text changed,
overwrite the selection of the newest snapshot in place when only the
selection changed, push the first snapshot when the history is empty. -/
def commitLive (s : BufferState) : BufferState :=
  match s.bufferHistory.getLast? with
  | some last =>
    if last.text ≠ s.buffer.text then
      { s with bufferHistory := s.bufferHistory ++ [s.buffer] }
    else if last.selection ≠ s.buffer.selection then
      { s with bufferHistory :=
          s.bufferHistory.dropLast ++ [{ last with selection := s.buffer.selection }] }
    else s
  | none => { s with bufferHistory := s.bufferHistory ++ [s.buffer] }

/-- `maybe_commit_undo_point` (state.rs lines 28 to 57).  The Rust
function recurses in the fork branch, but only after clearing the undo
cursor, so both recursive calls are exactly the live-mode body
`commitLive`; the out-of-bounds `Vec` indexing through a stale cursor
is a panic (`none`). -/
def maybeCommitUndoPoint (s : BufferState) : Option BufferState :=
  match s.bufferHistoryUndoI with
  | some restoredI =>
    match s.bufferHistory.get? restoredI with
    | none => none
    | some restored =>
      if restored.text ≠ s.buffer.text then
        let newBuffer := s.buffer
        let s1 := commitLive { s with bufferHistoryUndoI := none, buffer := restored }
        some (commitLive { s1 with buffer := newBuffer })
      else if restored.selection ≠ s.buffer.selection then
        some { s with bufferHistory :=
            s.bufferHistory.set restoredI { restored with selection := s.buffer.selection } }
      else some s
  | none => some (commitLive s)

/-- `undo(times)` (state.rs lines 59 to 72): step the cursor back with
saturating subtraction (committing first when still live) and restore
that snapshot; the indexing is a panic (`none`) only on a stale cursor. -/
def undo (times : Nat) (s : BufferState) : Option BufferState :=
  match s.bufferHistoryUndoI with
  | some restoredI =>
    let i := restoredI - times
    (s.bufferHistory.get? i).map fun b =>
      { s with bufferHistoryUndoI := some i, buffer := b }
  | none =>
    let s1 := commitLive s
    let i := s1.bufferHistory.length - 1 - times
    (s1.bufferHistory.get? i).map fun b =>
      { s1 with bufferHistoryUndoI := some i, buffer := b }

/-- `redo(times)` (state.rs lines 74 to 80): only acts while
mid-history; the cursor advances, capped at `history.len() - 1`, and
that snapshot is restored.  With an empty history the `len() - 1`
subtraction underflows and the indexing panics (`none`). -/
def redo (times : Nat) (s : BufferState) : Option BufferState :=
  match s.bufferHistoryUndoI with
  | some undoI =>
    if s.bufferHistory.length = 0 then none
    else
      let newI := min (undoI + times) (s.bufferHistory.length - 1)
      (s.bufferHistory.get? newI).map fun b =>
        { s with bufferHistoryUndoI := some newI, buffer := b }
  | none => some s

/-- The undo cursor, when present, indexes into the history. -/
def Inv (s : BufferState) : Prop :=
  ∀ i, s.bufferHistoryUndoI = some i → i < s.bufferHistory.length

/-- The history index `undo` steps back from: the current cursor while
mid-history, the index of the newest post-commit snapshot while live. -/
def undoBase (s : BufferState) : Nat :=
  match s.bufferHistoryUndoI with
  | some restoredI => restoredI
  | none => (commitLive s).bufferHistory.length - 1

/-- States reachable from a fresh document (empty history, no undo
cursor) by committing, undoing, redoing and editing the live buffer. -/
inductive Reachable : BufferState → Prop where
  | init (b : Buffer) :
      Reachable { buffer := b, bufferHistory := [], bufferHistoryUndoI := none }
  | commit {s s' : BufferState} :
      Reachable s → maybeCommitUndoPoint s = some s' → Reachable s'
  | undoStep {s s' : BufferState} (n : Nat) :
      Reachable s → undo n s = some s' → Reachable s'
  | redoStep {s s' : BufferState} (n : Nat) :
      Reachable s → redo n s = some s' → Reachable s'
  | edit {s : BufferState} (b : Buffer) :
      Reachable s → Reachable { s with buffer := b }


end BufferState


/-- A fresh live document: empty history, no undo cursor. -/
def exampleLiveState : BufferState :=
  { buffer := Buffer.default, bufferHistory := [], bufferHistoryUndoI := none }

/-- A mid-history state: one snapshot with the undo cursor on it, the
live buffer equal to the snapshot. -/
def exampleMidState : BufferState :=
  { buffer := Buffer.default, bufferHistory := [Buffer.default],
    bufferHistoryUndoI := some 0 }

/-- A forked mid-history state: the undo cursor sits on the single
snapshot while the live buffer text has changed. -/
def exampleForkState : BufferState :=
  { buffer := { Buffer.default with text := ['x'] },
    bufferHistory := [Buffer.default], bufferHistoryUndoI := some 0 }


/-! ### The claim theorems -/

/-! ### Claims C1 and C2: selection fixup on insert and delete -/

/-- C1: `SelectionSet::fix_on_insert` at offset `idx` of length `len`
applies the same rule to every selection, and on a single selection:
an endpoint strictly after `idx` shifts by `+len`; an endpoint exactly at
`idx` shifts by `+len` exactly when it is the trailing endpoint in the
current typing direction (the cursor of a forward selection, the anchor
of a backward one); an endpoint before `idx`, and the tied non-trailing
endpoint, stay put; the direction flag is untouched. -/
theorem fix_on_insert_endpoint_rule (ss : SelectionSet) (idx len : Nat) (sel : Selection) :
    (SelectionSet.fixOnInsert idx len ss).selections
      = ss.selections.map (Selection.fixOnInsert idx len)
    ∧ (Selection.fixOnInsert idx len sel).cursor
      = (if idx < sel.cursor then sel.cursor + len
         else if idx = sel.cursor ∧ sel.isForward = true then sel.cursor + len
         else sel.cursor)
    ∧ (Selection.fixOnInsert idx len sel).anchor
      = (if idx < sel.anchor then sel.anchor + len
         else if idx = sel.anchor ∧ sel.isForward = false then sel.anchor + len
         else sel.anchor)
    ∧ (Selection.fixOnInsert idx len sel).wasForward = sel.wasForward := by
  refine ⟨rfl, ?_, ?_, ?_⟩
  · cases hf : sel.isForward <;>
      simp only [Selection.fixOnInsert, hf, Bool.false_eq_true, Bool.true_eq_false,
        if_true, if_false, and_true, and_false, ite_false, ite_true] <;>
      split_ifs <;> omega
  · cases hf : sel.isForward <;>
      simp only [Selection.fixOnInsert, hf, Bool.false_eq_true, Bool.true_eq_false,
        if_true, if_false, and_true, and_false, ite_false, ite_true] <;>
      split_ifs <;> omega
  · simp only [Selection.fixOnInsert]
    split_ifs <;> rfl

/-- C2: `SelectionSet::fix_on_delete` for removal of `[idx, idx+len)`
applies the same rule to every selection, and on a single selection:
an endpoint at or after `idx + len` shifts by `-len`; an endpoint
strictly inside the removed range collapses to `idx` (the value
`idx + len - len = idx` also lands there, so the two descriptions
agree on the boundary); an endpoint at or before `idx` is untouched;
the direction flag is untouched. -/
theorem fix_on_delete_endpoint_rule (ss : SelectionSet) (idx len : Nat) (text : Text)
    (sel : Selection) :
    (SelectionSet.fixOnDelete idx len text ss).selections
      = ss.selections.map (Selection.fixOnDelete idx len text)
    ∧ (Selection.fixOnDelete idx len text sel).cursor
      = (if idx + len ≤ sel.cursor then sel.cursor - len
         else if idx < sel.cursor then idx
         else sel.cursor)
    ∧ (Selection.fixOnDelete idx len text sel).anchor
      = (if idx + len ≤ sel.anchor then sel.anchor - len
         else if idx < sel.anchor then idx
         else sel.anchor)
    ∧ (Selection.fixOnDelete idx len text sel).wasForward = sel.wasForward := by
  refine ⟨rfl, ?_, ?_, ?_⟩
  · simp only [Selection.fixOnDelete, Idx.backwardN]
    split_ifs <;> omega
  · simp only [Selection.fixOnDelete, Idx.backwardN]
    split_ifs <;> omega
  · rfl

/-! ### Claim C7: word motion -/

/-- Specification of the `forward_while` loop with fuel: the result is a
position no earlier than the start, within the text, every character
crossed satisfies the predicate, and the loop only stops at the end of
the text or on a character that fails the predicate. -/
theorem forwardWhileAux_spec (f : Char → Bool) (text : Text) :
    ∀ (fuel cur : Nat), cur ≤ text.length → text.length - cur ≤ fuel →
      (cur ≤ forwardWhileAux f text fuel cur ∧
        forwardWhileAux f text fuel cur ≤ text.length) ∧
      (∀ j, cur ≤ j → j < forwardWhileAux f text fuel cur →
        ∃ c, text.get? j = some c ∧ f c = true) ∧
      (forwardWhileAux f text fuel cur = text.length ∨
        ∃ c, text.get? (forwardWhileAux f text fuel cur) = some c ∧ f c = false) := by
  intro fuel
  induction fuel with
  | zero =>
    intro cur h1 h2
    have hcl : cur = text.length := by omega
    simp only [forwardWhileAux]
    exact ⟨⟨Nat.le_refl _, h1⟩, fun j hj1 hj2 => absurd (Nat.lt_of_le_of_lt hj1 hj2) (by omega),
      Or.inl hcl⟩
  | succ n ih =>
    intro cur h1 h2
    by_cases hc : cur ≥ text.length
    · have hcl : cur = text.length := Nat.le_antisymm h1 hc
      simp only [forwardWhileAux, Idx.nextChar, if_pos hc]
      exact ⟨⟨Nat.le_refl _, h1⟩, fun j hj1 hj2 => absurd (Nat.lt_of_le_of_lt hj1 hj2) (by omega),
        Or.inl hcl⟩
    · have hlt : cur < text.length := Nat.lt_of_not_le hc
      obtain ⟨c, hz⟩ : ∃ c, text.get? cur = some c :=
        ⟨text.get ⟨cur, hlt⟩, List.get?_eq_get hlt⟩
      simp only [forwardWhileAux, Idx.nextChar, if_neg hc, hz]
      by_cases hfc : f c = true
      · rw [if_pos hfc]
        obtain ⟨⟨ha1, ha2⟩, hrun, hstop⟩ := ih (cur + 1) (by omega) (by omega)
        refine ⟨⟨by omega, ha2⟩, ?_, hstop⟩
        intro j hj1 hj2
        rcases Nat.eq_or_lt_of_le hj1 with hj | hj
        · exact ⟨c, hj ▸ hz, hfc⟩
        · exact hrun j (by omega) hj2
      · rw [if_neg hfc]
        have hfc' : f c = false := by
          revert hfc; cases f c <;> simp
        exact ⟨⟨Nat.le_refl _, h1⟩,
          fun j hj1 hj2 => absurd (Nat.lt_of_le_of_lt hj1 hj2) (by omega),
          Or.inr ⟨c, hz, hfc'⟩⟩

/-- `Idx::forward_while` meets the loop specification whenever the start
position is inside the text. -/
theorem forwardWhile_spec (f : Char → Bool) (cur : Nat) (text : Text)
    (h : cur ≤ text.length) :
    (cur ≤ Idx.forwardWhile f cur text ∧ Idx.forwardWhile f cur text ≤ text.length) ∧
    (∀ j, cur ≤ j → j < Idx.forwardWhile f cur text →
      ∃ c, text.get? j = some c ∧ f c = true) ∧
    (Idx.forwardWhile f cur text = text.length ∨
      ∃ c, text.get? (Idx.forwardWhile f cur text) = some c ∧ f c = false) :=
  forwardWhileAux_spec f text text.length cur h (by omega)

/-- C7: `Idx::forward_word` skips leading newlines, crosses one maximal
run of the category of the first non-newline character, then consumes
trailing non-newline whitespace; and on the text `foo  bar.baz` with the
cursor at offset 0, three successive forward-word moves put the cursor
at offsets 5, 8 and 9. -/
theorem forward_word_phases :
    (∀ (text : Text) (i : Nat), i ≤ text.length →
      ∃ s m fin,
        Idx.forwardWord i text = (s, fin) ∧
        i ≤ s ∧ s ≤ m ∧ m ≤ fin ∧ fin ≤ text.length ∧
        (∀ j, i ≤ j → j < s → text.get? j = some '\n') ∧
        (s = text.length ∨ ∃ c, text.get? s = some c ∧ isNewline c = false) ∧
        (∀ j, s ≤ j → j < m →
          ∃ c₀ c, text.get? s = some c₀ ∧ text.get? j = some c ∧
            charCategory c = charCategory c₀) ∧
        (m = text.length ∨ s = text.length ∨
          ∃ c₀ c, text.get? s = some c₀ ∧ text.get? m = some c ∧
            charCategory c ≠ charCategory c₀) ∧
        (∀ j, m ≤ j → j < fin →
          ∃ c, text.get? j = some c ∧ isNonNewlineWhitespace c = true) ∧
        (fin = text.length ∨
          ∃ c, text.get? fin = some c ∧ isNonNewlineWhitespace c = false)) ∧
    (exampleWordBuffer.moveCursorForwardWord).selection.selections.map
      Selection.cursor = [5] ∧
    ((exampleWordBuffer.moveCursorForwardWord).moveCursorForwardWord).selection.selections.map
      Selection.cursor = [8] ∧
    (((exampleWordBuffer.moveCursorForwardWord).moveCursorForwardWord).moveCursorForwardWord).selection.selections.map
      Selection.cursor = [9] := by
  refine ⟨?_, by decide, by decide, by decide⟩
  intro text i hi
  obtain ⟨⟨hs1, hs2⟩, hrun1, hstop1⟩ := forwardWhile_spec isNewline i text hi
  rcases hns : Idx.nextChar (Idx.forwardWhile isNewline i text) text with _ | c₀
  · -- at end of text after skipping newlines: the category phase is skipped
    have hslen : Idx.forwardWhile isNewline i text = text.length := by
      by_contra hne
      have hlt : Idx.forwardWhile isNewline i text < text.length := by omega
      have : Idx.nextChar (Idx.forwardWhile isNewline i text) text ≠ none := by
        simp [Idx.nextChar, Nat.not_le.mpr hlt, List.get?_eq_get hlt]
      exact this hns
    obtain ⟨⟨hf1, hf2⟩, hrun3, hstop3⟩ :=
      forwardWhile_spec isNonNewlineWhitespace (Idx.forwardWhile isNewline i text) text hs2
    refine ⟨Idx.forwardWhile isNewline i text, Idx.forwardWhile isNewline i text,
      Idx.forwardWhile isNonNewlineWhitespace (Idx.forwardWhile isNewline i text) text,
      ?_, hs1, Nat.le_refl _, hf1, hf2, ?_, Or.inl hslen, ?_, Or.inr (Or.inl hslen), hrun3,
      hstop3⟩
    · simp only [Idx.forwardWord, hns, Option.map_none']
    · intro j hj1 hj2
      obtain ⟨c, hc, hfc⟩ := hrun1 j hj1 hj2
      simp only [isNewline, decide_eq_true_eq] at hfc
      rw [hfc] at hc; exact hc
    · intro j hj1 hj2; omega
  · -- a character exists at the start position
    have hc₀ : text.get? (Idx.forwardWhile isNewline i text) = some c₀ := by
      by_cases hlt : Idx.forwardWhile isNewline i text < text.length
      · simpa [Idx.nextChar, Nat.not_le.mpr hlt] using hns
      · simp [Idx.nextChar, Nat.le_of_not_lt hlt] at hns
    obtain ⟨⟨hm1, hm2⟩, hrun2, hstop2⟩ :=
      forwardWhile_spec (fun ch => charCategory ch = charCategory c₀)
        (Idx.forwardWhile isNewline i text) text hs2
    obtain ⟨⟨hf1, hf2⟩, hrun3, hstop3⟩ :=
      forwardWhile_spec isNonNewlineWhitespace
        (Idx.forwardWhile (fun ch => charCategory ch = charCategory c₀)
          (Idx.forwardWhile isNewline i text) text) text hm2
    refine ⟨Idx.forwardWhile isNewline i text,
      Idx.forwardWhile (fun ch => charCategory ch = charCategory c₀)
        (Idx.forwardWhile isNewline i text) text,
      Idx.forwardWhile isNonNewlineWhitespace
        (Idx.forwardWhile (fun ch => charCategory ch = charCategory c₀)
          (Idx.forwardWhile isNewline i text) text) text,
      ?_, hs1, hm1, hf1, hf2, ?_, ?_, ?_, ?_, hrun3, hstop3⟩
    · simp only [Idx.forwardWord, hns, Option.map_some']
    · intro j hj1 hj2
      obtain ⟨c, hc, hfc⟩ := hrun1 j hj1 hj2
      simp only [isNewline, decide_eq_true_eq] at hfc
      rw [hfc] at hc; exact hc
    · -- the skipped-newline phase stopped on a non-newline character
      rcases hstop1 with h | ⟨c, hc, hfc⟩
      · exact Or.inl h
      · exact Or.inr ⟨c, hc, hfc⟩
    · intro j hj1 hj2
      obtain ⟨c, hc, hfc⟩ := hrun2 j hj1 hj2
      simp only [decide_eq_true_eq] at hfc
      exact ⟨c₀, c, hc₀, hc, hfc⟩
    · rcases hstop2 with h | ⟨c, hc, hfc⟩
      · exact Or.inl h
      · refine Or.inr (Or.inr ⟨c₀, c, hc₀, hc, ?_⟩)
        simpa [decide_eq_true_eq] using hfc

/-- Witness for C7: the phase characterization applied at the example
text and offset 0. -/
theorem forward_word_phases_witness :
    (Idx.forwardWord 0 exampleWordBuffer.text).2 ≤ exampleWordBuffer.text.length := by
  obtain ⟨s, m, fin, heq, _, _, _, hle, _⟩ :=
    forward_word_phases.1 exampleWordBuffer.text 0 (by decide)
  rw [heq]
  exact hle

/-! ### Claim C8: tab insertion -/

/-- C8: with expand-tabs on, `Buffer::insert_tab` inserts exactly
`distance_to_next_tabstop` spaces at the cursor, the distance taken at
the visual column of the cursor (tab-stop aware, so prior tab characters
on the line count for their full width); at tabstop 4 the distance from
visual column 2 is 2 and from visual column 4 is 4. -/
theorem insert_tab_tabstop (b : Buffer) (sel : Selection) (extend : Bool)
    (hsel : b.selection.selections = [sel])
    (hexp : b.expandTabs = true)
    (hts : 0 < b.tabstop)
    (hcur : sel.cursor ≤ b.text.length) :
    (b.insertTab extend).text
      = b.text.take sel.cursor
        ++ List.replicate
             (distanceToNextTabstop
               ((b.toVisual (Idx.toPosition sel.cursor b.text)).column) b.tabstop)
             ' '
        ++ b.text.drop sel.cursor
    ∧ distanceToNextTabstop 2 4 = 2 ∧ distanceToNextTabstop 4 4 = 4 := by
  refine ⟨?_, by decide, by decide⟩
  simp only [Buffer.insertTab, SelectionSet.clearCursorColumn, hexp, if_true, hsel,
    List.map_cons, List.map_nil, sortByKey, insertByKey, List.reverse_cons,
    List.reverse_nil, List.nil_append, List.foldl_cons, List.foldl_nil, insertText,
    Buffer.toVisual, Idx.toPosition]
  cases extend <;> simp [Buffer.toVisual, Idx.toPosition]

/-- Witness for C8: inserting a tab in the buffer holding `\tab` with
the cursor after `b` (visual column 6, so two spaces to the next stop)
yields `\tab` followed by two spaces. -/
theorem insert_tab_tabstop_witness :
    (Buffer.insertTab false
        { text := ['\t','a','b'],
          selection := { primary := 0, selections := [⟨3, 3, false⟩], cursorColumn := [] },
          path := none, tabstop := 4, expandTabs := true }).text
      = ['\t','a','b',' ',' '] := by
  have h :=
    (insert_tab_tabstop
        { text := ['\t','a','b'],
          selection := { primary := 0, selections := [⟨3, 3, false⟩], cursorColumn := [] },
          path := none, tabstop := 4, expandTabs := true }
        ⟨3, 3, false⟩ false rfl rfl (by decide) (by decide)).1
  rw [h]
  decide

/-! ### Claim C5: totality at buffer edges.

The cited saturating operations do saturate, and the expand-tabs
backspace path is total; but `Buffer::backspace_one` (the expand-tabs-off
path of `backspace`) computes the unchecked `sel_aligned.cursor.0 - 1`
and therefore panics whenever a cursor sits at offset 0 — on the default
(empty) buffer the very first backspace is a panic, not a no-op. -/

/-- C5 (failing input): with expand-tabs off, `backspace` on the default
empty buffer panics (`none`) through the usize underflow in
`backspace_one`, while the expand-tabs-on path at the same edge is the
no-op the spec asks for, and the cited `Idx` arithmetic saturates. -/
theorem backspace_cursor_zero_panics :
    Buffer.backspace false
        { text := [], selection := SelectionSet.default, path := none,
          tabstop := 4, expandTabs := false }
      = none
    ∧ (Buffer.backspace false Buffer.default).map Buffer.text = some []
    ∧ Idx.backwardN 0 5 [] = 0
    ∧ Idx.forwardN 2 7 ['a','b'] = 2 := by
  decide

/-- C6 (counterexample): `Buffer::select_all` does not preserve the
direction of the primary selection.  On a buffer whose primary selection
is backward, the selection produced by `select_all` is forward, for
either value of the unspecified `was_forward` field. -/
theorem select_all_direction_counterexample :
    exampleBackwardBuffer.selection.selections.map Selection.isForward = [false]
    ∧ (exampleBackwardBuffer.selectAll true).selection.selections.map
        Selection.isForward = [true]
    ∧ (exampleBackwardBuffer.selectAll false).selection.selections.map
        Selection.isForward = [true] := by
  decide

/-- C6 (amended): `select_all` replaces the selection list with exactly
one selection with anchor 0 and cursor at the total character length,
leaving text and primary index alone; on a nonempty buffer the resulting
selection is always forward, regardless of the prior direction of the
primary selection. -/
theorem select_all_span (b : Buffer) (w : Bool) :
    (b.selectAll w).selection.selections
      = [{ anchor := 0, cursor := b.text.length, wasForward := w }]
    ∧ (b.selectAll w).text = b.text
    ∧ (b.selectAll w).selection.primary = b.selection.primary
    ∧ (b.text.length ≠ 0 →
        (b.selectAll w).selection.selections.map Selection.isForward = [true]) := by
  refine ⟨rfl, rfl, rfl, ?_⟩
  intro h
  simp [Buffer.selectAll, Selection.isForward, Nat.pos_of_ne_zero h]

/-- Witness for C6 (amended): the amended statement applied to the
two-character backward-selection buffer with `w` true. -/
theorem select_all_span_witness :
    (exampleBackwardBuffer.selectAll true).selection.selections.map
      Selection.isForward = [true] :=
  (select_all_span exampleBackwardBuffer true).2.2.2 (by decide)

namespace BufferState

/-- `commitLive` does not touch the live buffer. -/
theorem commitLive_buffer (s : BufferState) : (commitLive s).buffer = s.buffer := by
  unfold commitLive
  rcases s.bufferHistory.getLast? with _ | last
  · rfl
  · dsimp only
    split_ifs <;> rfl

/-- `commitLive` does not touch the undo cursor. -/
theorem commitLive_undoI (s : BufferState) :
    (commitLive s).bufferHistoryUndoI = s.bufferHistoryUndoI := by
  unfold commitLive
  rcases s.bufferHistory.getLast? with _ | last
  · rfl
  · dsimp only
    split_ifs <;> rfl

/-- `commitLive` never shrinks the history. -/
theorem commitLive_length (s : BufferState) :
    s.bufferHistory.length ≤ (commitLive s).bufferHistory.length := by
  unfold commitLive
  rcases h : s.bufferHistory.getLast? with _ | last
  · simp
  · have hne : s.bufferHistory ≠ [] := by
      intro hnil; rw [hnil] at h; simp at h
    dsimp only
    split_ifs <;> simp [List.length_dropLast]
    omega

/-- After `commitLive` the newest history entry carries exactly the
text and selection of the live buffer. -/
theorem commitLive_getLast (s : BufferState) :
    ∃ l, (commitLive s).bufferHistory.getLast? = some l ∧
      l.text = s.buffer.text ∧ l.selection = s.buffer.selection := by
  unfold commitLive
  rcases h : s.bufferHistory.getLast? with _ | last
  · exact ⟨s.buffer, by simp, rfl, rfl⟩
  · dsimp only
    split_ifs with h1 h2
    · exact ⟨s.buffer, by simp, rfl, rfl⟩
    · exact ⟨{ last with selection := s.buffer.selection }, by simp,
        by simpa using Classical.not_not.mp (fun hn => h1 hn), rfl⟩
    · refine ⟨last, h, ?_, ?_⟩
      · exact Classical.not_not.mp (fun hn => h1 hn)
      · exact Classical.not_not.mp (fun hn => h2 hn)

end BufferState

namespace BufferState

/-- commitLive when the newest entry has different text: push. -/
theorem commitLive_push (s : BufferState) (last : Buffer)
    (h : s.bufferHistory.getLast? = some last) (ht : last.text ≠ s.buffer.text) :
    commitLive s = { s with bufferHistory := s.bufferHistory ++ [s.buffer] } := by
  unfold commitLive
  rw [h]
  dsimp only
  rw [if_pos ht]

/-- commitLive when the newest entry has the same text: the newest
entry's selection is overwritten in place and nothing else changes. -/
theorem commitLive_eq_text (s : BufferState) (last : Buffer)
    (h : s.bufferHistory.getLast? = some last) (ht : last.text = s.buffer.text) :
    commitLive s
      = { s with bufferHistory :=
            s.bufferHistory.dropLast ++ [{ last with selection := s.buffer.selection }] } := by
  have hl : s.bufferHistory.dropLast ++ [last] = s.bufferHistory :=
    List.dropLast_append_getLast? last (Option.mem_def.mpr h)
  unfold commitLive
  rw [h]
  dsimp only
  rw [if_neg (by simp [ht])]
  split_ifs with h2
  · rfl
  · have hsel : last.selection = s.buffer.selection := Classical.not_not.mp h2
    have heta : ({ last with selection := s.buffer.selection } : Buffer) = last := by
      rw [← hsel]
    rw [heta, hl]

/-- commitLive when the newest entry equals the live buffer on both
text and selection: a no-op. -/
theorem commitLive_noop (s : BufferState) (last : Buffer)
    (h : s.bufferHistory.getLast? = some last) (ht : last.text = s.buffer.text)
    (hs : last.selection = s.buffer.selection) :
    commitLive s = s := by
  unfold commitLive
  rw [h]
  dsimp only
  rw [if_neg (by simp [ht]), if_neg (by simp [hs])]

end BufferState

namespace BufferState

/-- C4: from a live state, committing, then changing only the selection
of the live buffer, then committing again does not change the history
length (no duplicate snapshot); the second commit only overwrites the
selection of the newest entry in place, and the state stays live. -/
theorem commit_idempotent (s : BufferState) (σ : SelectionSet)
    (h : s.bufferHistoryUndoI = none) :
    ∃ s1 s2 last1,
      maybeCommitUndoPoint s = some s1 ∧
      maybeCommitUndoPoint { s1 with buffer := { s1.buffer with selection := σ } } = some s2 ∧
      s1.bufferHistory.getLast? = some last1 ∧
      s2.bufferHistory.length = s1.bufferHistory.length ∧
      s2.bufferHistory = s1.bufferHistory.dropLast ++ [{ last1 with selection := σ }] ∧
      s2.bufferHistoryUndoI = none ∧
      s2.buffer = { s1.buffer with selection := σ } := by
  have h1 : maybeCommitUndoPoint s = some (commitLive s) := by
    unfold maybeCommitUndoPoint; rw [h]
  obtain ⟨last1, hlast1, htext1, hsel1⟩ := commitLive_getLast s
  have hne1 : (commitLive s).bufferHistory ≠ [] := by
    intro hnil; rw [hnil] at hlast1; simp at hlast1
  have ht_undoI :
      ({ commitLive s with buffer := { (commitLive s).buffer with selection := σ } }
        : BufferState).bufferHistoryUndoI = none := by
    show (commitLive s).bufferHistoryUndoI = none
    rw [commitLive_undoI, h]
  have h2 : maybeCommitUndoPoint
      { commitLive s with buffer := { (commitLive s).buffer with selection := σ } }
      = some (commitLive
        { commitLive s with buffer := { (commitLive s).buffer with selection := σ } }) := by
    unfold maybeCommitUndoPoint; rw [ht_undoI]
  have htext_t : last1.text
      = ({ commitLive s with buffer := { (commitLive s).buffer with selection := σ } }
          : BufferState).buffer.text := by
    show last1.text = (commitLive s).buffer.text
    rw [commitLive_buffer]; exact htext1
  have h3 := commitLive_eq_text
    { commitLive s with buffer := { (commitLive s).buffer with selection := σ } }
    last1 hlast1 htext_t
  refine ⟨commitLive s,
    commitLive { commitLive s with buffer := { (commitLive s).buffer with selection := σ } },
    last1, h1, h2, hlast1, ?_, ?_, ?_, ?_⟩
  · rw [h3]
    show ((commitLive s).bufferHistory.dropLast ++ [{ last1 with selection := σ }]).length
      = (commitLive s).bufferHistory.length
    have := List.length_pos.mpr hne1
    simp [List.length_dropLast]
    omega
  · rw [h3]
  · rw [h3]
    show ({ commitLive s with buffer := { (commitLive s).buffer with selection := σ } }
      : BufferState).bufferHistoryUndoI = none
    exact ht_undoI
  · rw [h3]

end BufferState

namespace BufferState

/-- C3: a commit from a mid-history point whose text differs from the
live buffer clears the undo cursor, keeps the live buffer, and leaves
the history ending in the forked-from snapshot (text and selection of
the old history entry) immediately followed by the live buffer; hence a
single undo from the committed state restores exactly the point that
was just edited. -/
theorem undo_fork_commit (s : BufferState) (i : Nat) (restored : Buffer)
    (h1 : s.bufferHistoryUndoI = some i)
    (h2 : s.bufferHistory.get? i = some restored)
    (h3 : restored.text ≠ s.buffer.text) :
    ∃ s', maybeCommitUndoPoint s = some s' ∧
      s'.bufferHistoryUndoI = none ∧
      s'.buffer = s.buffer ∧
      (∃ mid l, s'.bufferHistory = mid ++ [s.buffer] ∧
        mid.getLast? = some l ∧ l.text = restored.text ∧ l.selection = restored.selection) ∧
      (∃ s'', undo 1 s' = some s'' ∧ s''.buffer.text = restored.text ∧
        s''.buffer.selection = restored.selection) := by
  have hmc : maybeCommitUndoPoint s
      = some (commitLive
          { commitLive { s with bufferHistoryUndoI := none, buffer := restored } with
            buffer := s.buffer }) := by
    unfold maybeCommitUndoPoint
    rw [h1]
    dsimp only
    rw [h2]
    dsimp only
    rw [if_pos h3]
  obtain ⟨l, hl, hlt, hls⟩ :=
    commitLive_getLast { s with bufferHistoryUndoI := none, buffer := restored }
  have hlt' : l.text = restored.text := hlt
  have hls' : l.selection = restored.selection := hls
  have hmidne : (commitLive
      { s with bufferHistoryUndoI := none, buffer := restored }).bufferHistory ≠ [] := by
    intro hnil; rw [hnil] at hl; simp at hl
  -- the second commit pushes the live (edited) buffer
  have hpush := commitLive_push
    { commitLive { s with bufferHistoryUndoI := none, buffer := restored } with
      buffer := s.buffer }
    l hl (by rw [hlt']; exact h3)
  set mid := (commitLive
    { s with bufferHistoryUndoI := none, buffer := restored }).bufferHistory with hmid
  have hundoI : (commitLive
      { s with bufferHistoryUndoI := none, buffer := restored }).bufferHistoryUndoI
      = none := commitLive_undoI _
  refine ⟨_, hmc, ?_, ?_, ⟨mid, l, ?_, hl, hlt', hls'⟩, ?_⟩
  · rw [hpush]
    exact hundoI
  · rw [hpush]
  · rw [hpush]
  · -- a single undo from the committed state restores the forked-from point
    have hs2undoI : (commitLive
        { commitLive { s with bufferHistoryUndoI := none, buffer := restored } with
          buffer := s.buffer }).bufferHistoryUndoI = none := by
      rw [hpush]; exact hundoI
    have hs2hist : (commitLive
        { commitLive { s with bufferHistoryUndoI := none, buffer := restored } with
          buffer := s.buffer }).bufferHistory = mid ++ [s.buffer] := by
      rw [hpush]
    have hs2buf : (commitLive
        { commitLive { s with bufferHistoryUndoI := none, buffer := restored } with
          buffer := s.buffer }).buffer = s.buffer := by
      rw [hpush]
    -- the commit inside undo is a no-op
    have hnoop : commitLive (commitLive
        { commitLive { s with bufferHistoryUndoI := none, buffer := restored } with
          buffer := s.buffer })
        = commitLive
          { commitLive { s with bufferHistoryUndoI := none, buffer := restored } with
            buffer := s.buffer } := by
      apply commitLive_noop _ s.buffer
      · rw [hs2hist]; exact List.getLast?_concat mid
      · rw [hs2buf]
      · rw [hs2buf]
    have hmidpos : 0 < mid.length := List.length_pos.mpr (by exact hmidne)
    have hgl : mid.get? (mid.length - 1) = some l := by
      rw [← List.getLast?_eq_get?]; exact hl
    have hidx : (mid ++ [s.buffer]).get? (mid.length + 1 - 1 - 1) = some l := by
      have : mid.length + 1 - 1 - 1 = mid.length - 1 := by omega
      rw [this, List.get?_append (by omega)]
      exact hgl
    refine ⟨{ commitLive
          { commitLive { s with bufferHistoryUndoI := none, buffer := restored } with
            buffer := s.buffer } with
        bufferHistoryUndoI := some (mid.length + 1 - 1 - 1), buffer := l }, ?_, hlt', hls'⟩
    unfold undo
    rw [hs2undoI]
    dsimp only
    rw [hnoop, hs2hist]
    rw [List.length_append]
    simp only [List.length_singleton]
    rw [hidx]
    rfl

end BufferState

namespace BufferState

theorem inv_commitLive (s : BufferState) (h : Inv s) : Inv (commitLive s) := by
  intro i hi
  rw [commitLive_undoI] at hi
  have h1 := h i hi
  have h2 := commitLive_length s
  omega

theorem maybeCommit_inv (s : BufferState) (h : Inv s) :
    ∃ s', maybeCommitUndoPoint s = some s' ∧ Inv s' := by
  rcases hu : s.bufferHistoryUndoI with _ | ri
  · exact ⟨commitLive s, by unfold maybeCommitUndoPoint; rw [hu], inv_commitLive s h⟩
  · have hri : ri < s.bufferHistory.length := h ri hu
    obtain ⟨restored, hres⟩ : ∃ b, s.bufferHistory.get? ri = some b :=
      ⟨_, List.get?_eq_get hri⟩
    by_cases ht : restored.text ≠ s.buffer.text
    · refine ⟨commitLive
        { commitLive { s with bufferHistoryUndoI := none, buffer := restored } with
          buffer := s.buffer }, ?_, ?_⟩
      · unfold maybeCommitUndoPoint
        rw [hu]
        dsimp only
        rw [hres]
        dsimp only
        rw [if_pos ht]
      · intro i hi
        rw [commitLive_undoI] at hi
        have h2 : (commitLive { s with bufferHistoryUndoI := none, buffer := restored
            }).bufferHistoryUndoI = none := by
          rw [commitLive_undoI]
        simp only [h2] at hi
        exact Option.noConfusion hi
    · by_cases hsel : restored.selection ≠ s.buffer.selection
      · refine ⟨{ s with bufferHistory := s.bufferHistory.set ri { restored with selection := s.buffer.selection } }, ?_, ?_⟩
        · unfold maybeCommitUndoPoint
          rw [hu]
          dsimp only
          rw [hres]
          dsimp only
          rw [if_neg ht, if_pos hsel]
        · intro i hi
          have := h i hi
          simpa [List.length_set] using this
      · refine ⟨s, ?_, h⟩
        unfold maybeCommitUndoPoint
        rw [hu]
        dsimp only
        rw [hres]
        dsimp only
        rw [if_neg ht, if_neg hsel]

theorem undo_inv (s : BufferState) (n : Nat) (h : Inv s) :
    ∃ s', undo n s = some s' ∧ Inv s' := by
  rcases hu : s.bufferHistoryUndoI with _ | ri
  · obtain ⟨l, hl, _, _⟩ := commitLive_getLast s
    have hne : (commitLive s).bufferHistory ≠ [] := by
      intro hnil; rw [hnil] at hl; simp at hl
    have hpos : 0 < (commitLive s).bufferHistory.length := List.length_pos.mpr hne
    have hlt : (commitLive s).bufferHistory.length - 1 - n
        < (commitLive s).bufferHistory.length := by omega
    obtain ⟨b, hb⟩ : ∃ b, (commitLive s).bufferHistory.get?
        ((commitLive s).bufferHistory.length - 1 - n) = some b :=
      ⟨_, List.get?_eq_get hlt⟩
    refine ⟨{ commitLive s with
        bufferHistoryUndoI := some ((commitLive s).bufferHistory.length - 1 - n),
        buffer := b }, ?_, ?_⟩
    · unfold undo
      rw [hu]
      dsimp only
      rw [hb]
      rfl
    · intro i hi
      simp only at hi
      cases hi
      simpa using hlt
  · have hri : ri < s.bufferHistory.length := h ri hu
    have hlt : ri - n < s.bufferHistory.length := by omega
    obtain ⟨b, hb⟩ : ∃ b, s.bufferHistory.get? (ri - n) = some b :=
      ⟨_, List.get?_eq_get hlt⟩
    refine ⟨{ s with bufferHistoryUndoI := some (ri - n), buffer := b }, ?_, ?_⟩
    · unfold undo
      rw [hu]
      dsimp only
      rw [hb]
      rfl
    · intro i hi
      simp only at hi
      cases hi
      simpa using hlt

theorem redo_inv (s : BufferState) (n : Nat) (h : Inv s) :
    ∃ s', redo n s = some s' ∧ Inv s' := by
  rcases hu : s.bufferHistoryUndoI with _ | ui
  · exact ⟨s, by unfold redo; rw [hu], h⟩
  · have hui : ui < s.bufferHistory.length := h ui hu
    have hlen : s.bufferHistory.length ≠ 0 := by omega
    have hlt : min (ui + n) (s.bufferHistory.length - 1) < s.bufferHistory.length := by omega
    obtain ⟨b, hb⟩ : ∃ b, s.bufferHistory.get?
        (min (ui + n) (s.bufferHistory.length - 1)) = some b :=
      ⟨_, List.get?_eq_get hlt⟩
    refine ⟨{ s with
        bufferHistoryUndoI := some (min (ui + n) (s.bufferHistory.length - 1)),
        buffer := b }, ?_, ?_⟩
    · unfold redo
      rw [hu]
      dsimp only
      rw [if_neg hlen, hb]
      rfl
    · intro i hi
      simp only at hi
      cases hi
      simpa using hlt

end BufferState

namespace BufferState

/-- C9: `undo(n)` and `redo(n)` saturate rather than fail: the undo
target index is the saturating subtraction from the base index and
bottoms out at 0, the redo target index is capped at
`history.len() - 1` and the restored buffer is that snapshot, and redo
in live mode (no undo cursor) performs no restore at all. -/
theorem undo_redo_saturation (s : BufferState) (n : Nat) (hInv : Inv s) :
    (∃ s', undo n s = some s' ∧
      s'.bufferHistoryUndoI = some (undoBase s - n) ∧
      (undoBase s ≤ n → s'.bufferHistoryUndoI = some 0) ∧
      s'.bufferHistory.get? (undoBase s - n) = some s'.buffer) ∧
    (∀ ui, s.bufferHistoryUndoI = some ui →
      ∃ s', redo n s = some s' ∧
        s'.bufferHistory = s.bufferHistory ∧
        s'.bufferHistoryUndoI = some (min (ui + n) (s.bufferHistory.length - 1)) ∧
        s.bufferHistory.get? (min (ui + n) (s.bufferHistory.length - 1)) = some s'.buffer) ∧
    (s.bufferHistoryUndoI = none → redo n s = some s) := by
  rcases hu : s.bufferHistoryUndoI with _ | ui
  · obtain ⟨l, hl, _, _⟩ := commitLive_getLast s
    have hne : (commitLive s).bufferHistory ≠ [] := by
      intro hnil; rw [hnil] at hl; simp at hl
    have hpos : 0 < (commitLive s).bufferHistory.length := List.length_pos.mpr hne
    have hbase : undoBase s = (commitLive s).bufferHistory.length - 1 := by
      unfold undoBase; rw [hu]
    have hlt : (commitLive s).bufferHistory.length - 1 - n
        < (commitLive s).bufferHistory.length := by omega
    obtain ⟨b, hb⟩ : ∃ b, (commitLive s).bufferHistory.get?
        ((commitLive s).bufferHistory.length - 1 - n) = some b :=
      ⟨_, List.get?_eq_get hlt⟩
    refine ⟨⟨{ commitLive s with
        bufferHistoryUndoI := some ((commitLive s).bufferHistory.length - 1 - n),
        buffer := b }, ?_, ?_, ?_, ?_⟩, ?_, ?_⟩
    · unfold undo
      rw [hu]
      dsimp only
      rw [hb]
      rfl
    · rw [hbase]
    · intro hle
      rw [hbase] at hle
      have h0 : (commitLive s).bufferHistory.length - 1 - n = 0 := by omega
      show some ((commitLive s).bufferHistory.length - 1 - n) = some 0
      rw [h0]
    · rw [hbase]
      exact hb
    · intro ui hui
      exact Option.noConfusion hui
    · intro _
      unfold redo
      rw [hu]
  · have hui : ui < s.bufferHistory.length := hInv ui hu
    have hbase : undoBase s = ui := by
      unfold undoBase; rw [hu]
    have hlt : ui - n < s.bufferHistory.length := by omega
    obtain ⟨b, hb⟩ : ∃ b, s.bufferHistory.get? (ui - n) = some b :=
      ⟨_, List.get?_eq_get hlt⟩
    have hlen : s.bufferHistory.length ≠ 0 := by omega
    have hlt2 : min (ui + n) (s.bufferHistory.length - 1) < s.bufferHistory.length := by
      omega
    obtain ⟨b2, hb2⟩ : ∃ b2, s.bufferHistory.get?
        (min (ui + n) (s.bufferHistory.length - 1)) = some b2 :=
      ⟨_, List.get?_eq_get hlt2⟩
    refine ⟨⟨{ s with bufferHistoryUndoI := some (ui - n), buffer := b }, ?_, ?_, ?_, ?_⟩,
      ?_, ?_⟩
    · unfold undo
      rw [hu]
      dsimp only
      rw [hb]
      rfl
    · rw [hbase]
    · intro hle
      rw [hbase] at hle
      have h0 : ui - n = 0 := by omega
      show some (ui - n) = some 0
      rw [h0]
    · rw [hbase]
      exact hb
    · intro ui2 hui2
      have heq : ui = ui2 := Option.some_inj.mp hui2
      subst heq
      refine ⟨{ s with
          bufferHistoryUndoI := some (min (ui + n) (s.bufferHistory.length - 1)),
          buffer := b2 }, ?_, rfl, rfl, hb2⟩
      unfold redo
      rw [hu]
      dsimp only
      rw [if_neg hlen, hb2]
      rfl
    · intro hnone
      exact Option.noConfusion hnone

/-- C10: every state reachable from a fresh document by commits, undos,
redos and live-buffer edits keeps the undo cursor, when present, a
valid index into a nonempty history, so none of the three operations
ever indexes out of bounds (none of them can panic: all return
`some`). -/
theorem reachable_history_inv (s : BufferState) (h : Reachable s) :
    Inv s ∧ (maybeCommitUndoPoint s).isSome ∧
      ∀ n, (undo n s).isSome ∧ (redo n s).isSome := by
  have hInv : Inv s := by
    induction h with
    | init b =>
      intro i hi
      exact Option.noConfusion hi
    | commit hr hmc ih =>
      obtain ⟨s2, heq, hinv⟩ := maybeCommit_inv _ ih
      rw [heq] at hmc
      cases Option.some_inj.mp hmc
      exact hinv
    | undoStep n hr hun ih =>
      obtain ⟨s2, heq, hinv⟩ := undo_inv _ n ih
      rw [heq] at hun
      cases Option.some_inj.mp hun
      exact hinv
    | redoStep n hr hre ih =>
      obtain ⟨s2, heq, hinv⟩ := redo_inv _ n ih
      rw [heq] at hre
      cases Option.some_inj.mp hre
      exact hinv
    | edit b hr ih =>
      intro i hi
      exact ih i hi
  refine ⟨hInv, ?_, fun n => ⟨?_, ?_⟩⟩
  · obtain ⟨s2, heq, _⟩ := maybeCommit_inv s hInv
    rw [heq]
    rfl
  · obtain ⟨s2, heq, _⟩ := undo_inv s n hInv
    rw [heq]
    rfl
  · obtain ⟨s2, heq, _⟩ := redo_inv s n hInv
    rw [heq]
    rfl

end BufferState

/-- Witness for C4: the idempotent-commit statement applied to the fresh
live document with the default selection set. -/
theorem commit_idempotent_witness :
    ∃ s1 s2 last1,
      BufferState.maybeCommitUndoPoint exampleLiveState = some s1 ∧
      BufferState.maybeCommitUndoPoint
        { s1 with buffer := { s1.buffer with selection := SelectionSet.default } }
        = some s2 ∧
      s1.bufferHistory.getLast? = some last1 ∧
      s2.bufferHistory.length = s1.bufferHistory.length := by
  obtain ⟨s1, s2, last1, h1, h2, h3, h4, _⟩ :=
    BufferState.commit_idempotent exampleLiveState SelectionSet.default rfl
  exact ⟨s1, s2, last1, h1, h2, h3, h4⟩

/-- Witness for C3: the fork-commit statement applied at the forked
example state. -/
theorem undo_fork_commit_witness :
    ∃ s', BufferState.maybeCommitUndoPoint exampleForkState = some s' ∧
      s'.bufferHistoryUndoI = none := by
  obtain ⟨s', h1, h2, _⟩ :=
    BufferState.undo_fork_commit exampleForkState 0 Buffer.default rfl rfl (by decide)
  exact ⟨s', h1, h2⟩

/-- Witness for C9: undoing five steps from the single-snapshot
mid-history state saturates at index 0. -/
theorem undo_redo_saturation_witness :
    ∃ s', BufferState.undo 5 exampleMidState = some s' ∧
      s'.bufferHistoryUndoI = some 0 := by
  obtain ⟨⟨s', h1, h2, h3, h4⟩, _, _⟩ :=
    BufferState.undo_redo_saturation exampleMidState 5
      (fun i hi => by cases Option.some_inj.mp hi; decide)
  exact ⟨s', h1, h3 (by decide)⟩

/-- Witness for C10: the reachability invariant at a fresh document. -/
theorem reachable_history_inv_witness :
    BufferState.Inv exampleLiveState :=
  (BufferState.reachable_history_inv exampleLiveState
    (BufferState.Reachable.init Buffer.default)).1
